import Mathlib

/-!
Verification development for the `vo` repository fragment: the thread-per-core
host scheduler (`src/main/core/scheduler/scheduler.rs`), the asynchronous
logger (`src/main/core/logger/shadow_logger.rs`) and the syscall dispatch
table (`src/main/host/syscall/handler/mod.rs`), shallowly embedded in Lean.

Machine integers are embedded as `Nat` with explicit range checks where the
Rust code performs fallible conversions (`try_from(..).unwrap()` becomes an
`Option` that is `none` exactly when the Rust code would panic).
-/

namespace Vo

/-! ## Logger: time decomposition

Embedding of `TimeParts` and `TimeParts::from_nanos` from
`shadow_logger.rs`.  The Rust fields are `hours: u32`, `mins: u32`,
`secs: u64`, `nanos: u64`; `from_nanos` takes a `u128` and performs two
fallible narrowing conversions (`u64::try_from`, `u32::try_from`) that are
`unwrap`ped, so the embedding returns `none` exactly when one of those
conversions would fail (a Rust panic). -/

structure TimeParts where
  hours : Nat
  mins : Nat
  secs : Nat
  nanos : Nat
  deriving DecidableEq, Repr

namespace TimeParts

/-- Embedding of `TimeParts::from_nanos(total_nanos: u128)`.  Division chain:
total nanoseconds to whole seconds to whole minutes to whole hours, with the
parts produced by subtracting the coarser unit back out, exactly as in the
source.  The `u64`/`u32` range checks model the `try_from(..).unwrap()`
calls; on overflow the Rust code panics and the embedding returns `none`. -/
def from_nanos (total_nanos : Nat) : Option TimeParts :=
  let whole_secs := total_nanos / 1000000000
  if whole_secs < 2 ^ 64 then
    let whole_mins := whole_secs / 60
    if whole_mins < 2 ^ 32 then
      let whole_hours := whole_mins / 60
      let mins_part := whole_mins - whole_hours * 60
      let secs_part := whole_secs - whole_mins * 60
      let nanos_part := total_nanos - whole_secs * 1000000000
      if nanos_part < 2 ^ 64 then
        some ⟨whole_hours, mins_part, secs_part, nanos_part⟩
      else
        none
    else
      none
  else
    none

end TimeParts

/-! ## Logger: flush thresholds and producer policy -/

/-- Embedding of `ASYNC_FLUSH_QD_LINES_THRESHOLD` (trigger an asynchronous
flush when this many lines are queued). -/
def ASYNC_FLUSH_QD_LINES_THRESHOLD : Nat := 100000

/-- Embedding of `SYNC_FLUSH_QD_LINES_THRESHOLD = 10 *
ASYNC_FLUSH_QD_LINES_THRESHOLD` (perform a synchronous flush at this queue
length). -/
def SYNC_FLUSH_QD_LINES_THRESHOLD : Nat := 10 * ASYNC_FLUSH_QD_LINES_THRESHOLD

/-- Embedding of `log::Level` (the five levels of the Rust `log` crate). -/
inductive Level where
  | error
  | warn
  | info
  | debug
  | trace
  deriving DecidableEq, Repr

/-- Numeric rank of a level as in the `log` crate (`Error = 1` is the most
severe / smallest). -/
def Level.toNat : Level → Nat
  | .error => 1
  | .warn => 2
  | .info => 3
  | .debug => 4
  | .trace => 5

/-- Embedding of `log::LevelFilter` used by `log::max_level()`: `off` plus
the five levels. -/
inductive LevelFilter where
  | off
  | error
  | warn
  | info
  | debug
  | trace
  deriving DecidableEq, Repr

/-- Numeric rank of a level filter as in the `log` crate (`Off = 0`). -/
def LevelFilter.toNat : LevelFilter → Nat
  | .off => 0
  | .error => 1
  | .warn => 2
  | .info => 3
  | .debug => 4
  | .trace => 5

/-- Embedding of `ShadowLogger::enabled`: `metadata.level() <=
log::max_level()` (levels order by severity, so a level passes the filter
when its rank is at most the filter's rank). -/
def ShadowLogger.enabled (level : Level) (maxLevel : LevelFilter) : Bool :=
  level.toNat ≤ maxLevel.toNat

/-- Flush command issued by a producer after pushing a record: a synchronous
flush (send `Flush` with a reply channel and block), an asynchronous flush
(send `Flush` without a reply channel), or no command at all. -/
inductive FlushCmd where
  | sync
  | async
  | noCmd
  deriving DecidableEq, Repr

/-- Producer-side state of `ShadowLogger` relevant to the flush policy: the
record queue (front = next to pop) and the `buffering_enabled` flag.  The
record type is abstract. -/
structure LoggerState (R : Type) where
  records : List R
  buffering_enabled : Bool

/-- Embedding of `ShadowLogger::new()`: empty record queue and
`buffering_enabled: RwLock::new(false)`. -/
def ShadowLogger.new (R : Type) : LoggerState R :=
  ⟨[], false⟩

/-- Embedding of the tail of `ShadowLogger::log` (after the record has been
pushed): reads the queue length and decides which flush command to issue.
`queueLen` is the length observed by `self.records.len()` after the push. -/
def ShadowLogger.flushPolicy (level : Level) (queueLen : Nat)
    (buffering_enabled : Bool) : FlushCmd :=
  if level = .error ∨ queueLen > SYNC_FLUSH_QD_LINES_THRESHOLD then
    .sync
  else if queueLen > ASYNC_FLUSH_QD_LINES_THRESHOLD ∨ ¬buffering_enabled then
    .async
  else
    .noCmd

/-- Embedding of `ShadowLogger::log` for a record of level `level` and
payload `r`: if the level does not pass the filter, return with no push and
no command; otherwise push the record and apply the flush policy to the
queue length observed after the push. -/
def ShadowLogger.log {R : Type} (s : LoggerState R) (level : Level)
    (r : R) (maxLevel : LevelFilter) : LoggerState R × Option FlushCmd :=
  if ¬ShadowLogger.enabled level maxLevel then
    (s, none)
  else
    let s2 : LoggerState R := ⟨s.records ++ [r], s.buffering_enabled⟩
    (s2, some (ShadowLogger.flushPolicy level s2.records.length s.buffering_enabled))

/-! ## Logger: writer drain loop

Embedding of `ShadowLogger::flush_records`: the writer samples the queue
length once (`let mut toflush = self.records.len()`), then pops and writes
exactly that many records.  Concurrent producer pushes interleave with the
pops; the queue is FIFO (`SegQueue`), pops take the front, pushes append at
the back.  `DrainEv.pop` is one iteration of the writer's `while toflush >
0` loop; `DrainEv.push` is a concurrent `records.push` by a producer.  A
`pop` when the queue is empty models the `self.records.pop().unwrap()`
panic, so the run returns `none` in that case. -/

inductive DrainEv (R : Type) where
  | pop
  | push (r : R)

/-- State of one drain: the live queue, the records written so far (in
output order) and the writer's remaining `toflush` count. -/
structure DrainState (R : Type) where
  queue : List R
  written : List R
  toflush : Nat
  deriving DecidableEq, Repr

/-- One event of a drain: a producer push appends to the queue; a writer pop
requires `toflush > 0` (the loop guard) and a nonempty queue (else the
`pop().unwrap()` would panic, modelled as `none`). -/
def drainStep {R : Type} (s : DrainState R) : DrainEv R → Option (DrainState R)
  | .push r => some ⟨s.queue ++ [r], s.written, s.toflush⟩
  | .pop =>
    match s.toflush, s.queue with
    | 0, _ => none
    | _ + 1, [] => none
    | t + 1, r :: rest => some ⟨rest, s.written ++ [r], t⟩

/-- Run a sequence of interleaved drain events. -/
def drainRun {R : Type} (evs : List (DrainEv R)) (s : DrainState R) :
    Option (DrainState R) :=
  match evs with
  | [] => some s
  | ev :: rest => do drainRun rest (← drainStep s ev)

/-- Number of writer pops in an event sequence. -/
def popCount {R : Type} : List (DrainEv R) → Nat
  | [] => 0
  | .pop :: rest => popCount rest + 1
  | .push _ :: rest => popCount rest

/-- Producer pushes of an event sequence, in arrival order. -/
def pushedRecords {R : Type} : List (DrainEv R) → List R
  | [] => []
  | .pop :: rest => pushedRecords rest
  | .push r :: rest => r :: pushedRecords rest

/-! ## Logger: record formatting

Embedding of the body of the `while toflush > 0` loop of
`ShadowLogger::flush_records`, which formats one `ShadowLogRecord` to one
output line.  Times are carried as total nanoseconds (`Duration::as_nanos`
and `SimulationTime::as_nanos` both yield the nanosecond count). -/

/-- Left-pad the decimal representation of `n` with zeros to width `w`
(Rust `{:0w}` formatting: wider numbers are not truncated). -/
def natPad (w n : Nat) : String :=
  let s := toString n
  String.mk (List.replicate (w - s.length) '0') ++ s

/-- Display name of a level, as Rust's `Display` for `log::Level`. -/
def Level.display : Level → String
  | .error => "ERROR"
  | .warn => "WARN"
  | .info => "INFO"
  | .debug => "DEBUG"
  | .trace => "TRACE"

/-- Characters after the last '/' of the list (the whole list when it has
no '/'), embedding `f.rfind('/')` followed by the slice `&f[(sep_pos+1)..]`. -/
def basenameChars (cs : List Char) : List Char :=
  (cs.reverse.takeWhile (fun c => c ≠ '/')).reverse

/-- Substring of a path after its last '/', or the whole path if it
contains no slash. -/
def basename (s : String) : String :=
  String.mk (basenameChars s.data)

/-- Embedding of `ShadowLogRecord`.  `wall_time` is total wall-clock
nanoseconds, `sim_time` total simulated nanoseconds. -/
structure ShadowLogRecord where
  level : Level
  file : Option String
  module_path : Option String
  line : Option Nat
  message : String
  wall_time : Nat
  sim_time : Option Nat
  thread_id : Option Int
  host_name : Option String

/-- Embedding of the per-record formatting in `ShadowLogger::flush_records`:
wall clock as HH:MM:SS plus six microsecond digits, the thread field, the
simulated time as HH:MM:SS plus nine nanosecond digits or n/a, then level,
host, file basename and line, module, message, newline.  `none` models the
panic of the `TimeParts::from_nanos` unwraps. -/
def formatRecord (r : ShadowLogRecord) : Option String := do
  let parts ← TimeParts.from_nanos r.wall_time
  let wall := natPad 2 parts.hours ++ ":" ++ natPad 2 parts.mins ++ ":" ++
    natPad 2 parts.secs ++ "." ++ natPad 6 (parts.nanos / 1000)
  let thread :=
    match r.thread_id with
    | some id => " [thread-" ++ toString id ++ "]"
    | none => " [n/a]"
  let sim ←
    match r.sim_time with
    | some t => do
      let p ← TimeParts.from_nanos t
      pure (" " ++ natPad 2 p.hours ++ ":" ++ natPad 2 p.mins ++ ":" ++
        natPad 2 p.secs ++ "." ++ natPad 9 p.nanos)
    | none => pure " n/a"
  let file :=
    match r.file with
    | some f => basename f
    | none => "n/a"
  let line :=
    match r.line with
    | some l => toString l
    | none => "n/a"
  pure (wall ++ thread ++ sim ++ " [" ++ (r.level).display ++ "] [" ++
    r.host_name.getD "n/a" ++ "] [" ++ file ++ ":" ++ line ++ "] [" ++
    r.module_path.getD "n/a" ++ "] " ++ r.message ++ "\n")

/-! ## Syscall dispatch

Embedding of the `match ctx.args.number` table of
`SyscallHandler::syscall` (`src/main/host/syscall/handler/mod.rs`).  All
match patterns are distinct integer literals, so the table is embedded as
disjoint lists of x86-64 syscall numbers tried in the order of the source's
arm groups, with the wildcard arm last. -/

/-- Outcome category of one dispatch: routed to an in-process handler,
explicitly unsupported (warn and return `Err(ENOSYS)`), shim-only (panic,
because the number must have been intercepted earlier), native passthrough
(`Err(SyscallError::Native)`), or unmapped (warn and return
`Err(ENOSYS)`). -/
inductive SyscallOutcome where
  | handled
  | unsupportedEnosys
  | shimOnlyPanic
  | native
  | unmappedEnosys
  deriving DecidableEq, Repr

/-- Numbers of the `handle!` arms (x86-64 syscall numbers for the
`libc::SYS_*` constants, in the source's order). -/
def handledSyscallNums : List Int :=
  [43, 288, 49, 12, 229, 230, 56, 435, 3, 42, 85, 32, 33, 292, 213, 291,
   233, 281, 441, 232, 284, 290, 59, 322, 231, 269, 221, 285, 91, 268, 93,
   260, 72, 75, 193, 196, 73, 57, 199, 190, 5, 138, 74, 77, 202, 261, 274,
   78, 217, 36, 52, 121, 111, 39, 110, 318, 124, 51, 55, 186, 16, 62, 265,
   50, 8, 258, 259, 9, 10, 25, 11, 35, 262, 2, 257, 22, 293, 7, 271, 157,
   17, 295, 327, 302, 270, 18, 296, 328, 0, 187, 267, 19, 45, 47, 264, 316,
   334, 13, 14, 204, 203, 23, 46, 44, 273, 218, 38, 109, 112, 54, 48, 131,
   41, 53, 332, 266, 277, 306, 99, 234, 283, 287, 286, 200, 63, 263, 280,
   58, 247, 61, 1, 20]

/-- Modelled from the spec: the three custom shadow syscall numbers
(`SYS_shadow_hostname_to_addr_ipv4`, `SYS_shadow_init_memory_manager`,
`SYS_shadow_yield`).  Their numeric values come from
`c::ShadowSyscallNum_*`, which is generated code not present under `src/`;
the spec says only that three custom numbers extend the table, so they are
modelled as three distinct numbers outside the Linux range. -/
def shadowSyscallNums : List Int := [1002, 1001, 1000]

/-- Numbers of the `unsupported!` arms: chdir, copy_file_range, fchdir,
io_getevents, msync, recvmmsg, sendfile, sendmmsg, splice, tee,
vmsplice. -/
def unsupportedSyscallNums : List Int :=
  [80, 326, 81, 208, 26, 299, 40, 307, 275, 276, 278]

/-- Numbers of the `shim_only!` arms: clock_gettime, gettimeofday,
sched_yield, time. -/
def shimOnlySyscallNums : List Int := [228, 96, 24, 201]

/-- Numbers of the `native!` arms. -/
def nativeSyscallNums : List Int :=
  [21, 158, 90, 92, 60, 79, 107, 108, 104, 115, 120, 118, 97, 102, 191, 94,
   192, 86, 194, 195, 198, 189, 6, 28, 83, 133, 89, 197, 82, 84, 15, 123,
   122, 106, 114, 119, 117, 113, 160, 105, 188, 4, 137, 88, 76, 87, 132,
   235]

/-- Embedding of the dispatch of `SyscallHandler::syscall` on the syscall
number: the arm groups are tried in source order and the wildcard arm warns
and returns `Err(ENOSYS)`. -/
def SyscallHandler.syscall (n : Int) : SyscallOutcome :=
  if n ∈ handledSyscallNums then .handled
  else if n ∈ shadowSyscallNums then .handled
  else if n ∈ unsupportedSyscallNums then .unsupportedEnosys
  else if n ∈ shimOnlySyscallNums then .shimOnlyPanic
  else if n ∈ nativeSyscallNums then .native
  else .unmappedEnosys

/-- Coarse result of a dispatch outcome as seen by the caller: `some false`
for an `Err(ENOSYS)` return, `some true` for outcomes that return some
other `SyscallResult`, and `none` for a panic. -/
def SyscallOutcome.returnsEnosys : SyscallOutcome → Option Bool
  | .handled => some true
  | .native => some true
  | .unsupportedEnosys => some false
  | .unmappedEnosys => some false
  | .shimOnlyPanic => none

/-! ## Thread-per-core scheduler

Embedding of `NewScheduler`, `SchedScope::run_with_hosts` and `HostIter`
(`src/main/core/scheduler/scheduler.rs`).  Hosts are embedded as their
identities (`Nat`); tasks mutate a host in place but never change its
identity, and the scheduler moves hosts between queues without copying.
`crossbeam::queue::ArrayQueue` is a bounded FIFO whose `push` fails exactly
when the queue holds `cap` elements. -/

structure ArrayQueue where
  cap : Nat
  items : List Nat
  deriving DecidableEq, Repr

/-- Embedding of `ArrayQueue::push`: appends at the back, fails when
full. -/
def ArrayQueue.push (q : ArrayQueue) (h : Nat) : Option ArrayQueue :=
  if q.items.length < q.cap then some ⟨q.cap, q.items ++ [h]⟩ else none

/-- Embedding of `ArrayQueue::pop`: takes from the front. -/
def ArrayQueue.pop (q : ArrayQueue) : Option (Nat × ArrayQueue) :=
  match q.items with
  | [] => none
  | h :: rest => some (h, ⟨q.cap, rest⟩)

/-- Embedding of `ArrayQueue::new(cap)`: crossbeam asserts that the
capacity is non-zero ("capacity must be non-zero") and panics otherwise,
modelled as `none`. -/
def ArrayQueue.new (cap : Nat) : Option ArrayQueue :=
  if 0 < cap then some ⟨cap, []⟩ else none

/-- Embedding of `(0..num_threads).map(|_| ArrayQueue::new(hosts.len()))
.collect()` from `NewScheduler::new`: `t` queues of capacity `cap` are
constructed one by one; a panicking `ArrayQueue::new(0)` (any `t > 0` with
no hosts) makes the whole construction `none`. -/
def newQueues (cap : Nat) : Nat → Option (List ArrayQueue)
  | 0 => some []
  | n + 1 =>
    match ArrayQueue.new cap with
    | none => none
    | some q =>
      match newQueues cap n with
      | none => none
      | some qs => some (q :: qs)

/-- Embedding of `NewScheduler`: the per-thread "from" queues
(`thread_hosts`), the per-thread "to" queues (`thread_hosts_processed`) and
the `hosts_need_swap` flag. -/
structure NewScheduler where
  num_threads : Nat
  thread_hosts : List ArrayQueue
  thread_hosts_processed : List ArrayQueue
  hosts_need_swap : Bool
  deriving DecidableEq, Repr

/-- Embedding of the round-robin loop of `NewScheduler::new`:
`thread_hosts.iter().cycle().zip(hosts)` pushes host number `k` (0-based,
counting from `k0`) onto queue `k mod num_threads`, unwrapping each push.
When `num_threads = 0` the cycled iterator is empty, the zip produces
nothing and the hosts are dropped. -/
def distributeHosts (t : Nat) : Nat → List Nat → List ArrayQueue →
    Option (List ArrayQueue)
  | _, [], qs => some qs
  | k0, h :: hs, qs =>
    if t = 0 then
      some qs
    else
      match (qs.get? (k0 % t)).bind (fun q => q.push h) with
      | none => none
      | some q2 => distributeHosts t (k0 + 1) hs (qs.set (k0 % t) q2)

/-- Embedding of `NewScheduler::new`: both queue vectors get one queue per
thread with capacity `hosts.len()`, then hosts are assigned round-robin to
the "from" queues.  `none` models a panic: either crossbeam's
`ArrayQueue::new(0)` assertion when `hosts` is empty and a queue is
constructed, or a failing `push(host).unwrap()`. -/
def NewScheduler.new (t : Nat) (hosts : List Nat) : Option NewScheduler :=
  match newQueues hosts.length t with
  | none => none
  | some thread_hosts =>
    match newQueues hosts.length t with
    | none => none
    | some thread_hosts_2 =>
      match distributeHosts t 0 hosts thread_hosts with
      | none => none
      | some fromq => some ⟨t, fromq, thread_hosts_2, false⟩

/-- Embedding of the swap at the top of `NewScheduler::scope`: when
`hosts_need_swap` is set, the "from" and "to" queue vectors are exchanged
and the flag cleared. -/
def NewScheduler.scopeEntrySwap (sch : NewScheduler) : NewScheduler :=
  if sch.hosts_need_swap then
    ⟨sch.num_threads, sch.thread_hosts_processed, sch.thread_hosts, false⟩
  else
    sch

/-- Embedding of `HostIter`: the owning thread's index, the scan offset
across the "from" queues, and the host currently held in flight. -/
structure HostIter where
  this_thread_index : Nat
  thread_index_iter_offset : Nat
  current_host : Option Nat
  deriving DecidableEq, Repr

/-- Embedding of `HostIter::return_current_host`: pushes the held host, if
any, onto the owning thread's "to" queue (`none` models the
`push(..).unwrap()` panic on a full queue). -/
def returnCurrentHost (toq : ArrayQueue) (it : HostIter) :
    Option (ArrayQueue × HostIter) :=
  match it.current_host with
  | none => some (toq, it)
  | some h =>
    match toq.push h with
    | none => none
    | some q2 =>
      some (q2, ⟨it.this_thread_index, it.thread_index_iter_offset, none⟩)

/-- Body of the scan loop of `HostIter::next`, with the loop's remaining
iteration count (`num_threads - offset`) made an explicit structural
argument so that the definition computes.  The canonical entry point is
`nextScan`. -/
def nextScanFuel (fromq : List ArrayQueue) (this : Nat) :
    Nat → Nat → Option Nat × Nat × List ArrayQueue
  | offset, 0 => (none, offset, fromq)
  | offset, fuel + 1 =>
    if offset < fromq.length then
      let j := (this + offset) % fromq.length
      match (fromq.get? j).bind ArrayQueue.pop with
      | some (host, q2) => (some host, offset, fromq.set j q2)
      | none => nextScanFuel fromq this (offset + 1) fuel
    else
      (none, offset, fromq)

/-- Embedding of the scan loop of `HostIter::next`: starting at `offset`,
pop the queue at index `(this + offset) mod num_threads`; on an empty queue
advance the offset, until a host is found or all queues were tried.
Returns the popped host (if any), the final offset and the updated
queues. -/
def nextScan (fromq : List ArrayQueue) (this offset : Nat) :
    Option Nat × Nat × List ArrayQueue :=
  nextScanFuel fromq this offset (fromq.length - offset)

/-- State of one `run_with_hosts` round: the "from" queues, the "to"
queues, and each thread's `HostIter`. -/
structure RunState where
  thread_hosts : List ArrayQueue
  thread_hosts_processed : List ArrayQueue
  iters : List HostIter
  deriving DecidableEq, Repr

/-- Embedding of one call to `HostIter::next` by thread `i`: return the
held host to this thread's "to" queue, then scan the "from" queues from the
saved offset; the popped host (if any) becomes the new current host.
Returns the yielded host and the new state; `none` models a panic
(full "to" queue) or an out-of-range thread index. -/
def stepThread (s : RunState) (i : Nat) : Option (Option Nat × RunState) :=
  match s.iters.get? i with
  | none => none
  | some it =>
    match s.thread_hosts_processed.get? it.this_thread_index with
    | none => none
    | some toq =>
      match returnCurrentHost toq it with
      | none => none
      | some (toq2, it2) =>
        let toqs2 := s.thread_hosts_processed.set it.this_thread_index toq2
        match nextScan s.thread_hosts it2.this_thread_index
            it2.thread_index_iter_offset with
        | (res, off2, fromq2) =>
          some (res, ⟨fromq2, toqs2,
            s.iters.set i ⟨it2.this_thread_index, off2, res⟩⟩)

/-- Embedding of `HostIter`'s `Drop`: return the current host, if any, to
the owning thread's "to" queue. -/
def hostIterDrop (toq : ArrayQueue) (it : HostIter) :
    Option (ArrayQueue × HostIter) :=
  returnCurrentHost toq it

/-- Embedding of the end-of-task assertions of `run_with_hosts` (and
`run_with_data`): `assert!(current_host.is_none())` and
`assert!(next().is_none())`.  True when the task would panic. -/
def taskEndPanics (fromq : List ArrayQueue) (it : HostIter) : Bool :=
  it.current_host.isSome ||
    (nextScan fromq it.this_thread_index it.thread_index_iter_offset).1.isSome

/-- Fresh per-thread iterators built at the start of `run_with_hosts`:
thread `i` scans from its own queue first (`this_thread_index = i`,
offset 0, no host in flight). -/
def initIters (t : Nat) : List HostIter :=
  (List.range t).map (fun i => ⟨i, 0, none⟩)

/-- Round state at the start of `run_with_hosts`. -/
def NewScheduler.initRun (sch : NewScheduler) : RunState :=
  ⟨sch.thread_hosts, sch.thread_hosts_processed, initIters sch.num_threads⟩

/-- Scheduler state after `run_with_hosts` returns: the queues as the round
left them, and `hosts_need_swap` set. -/
def NewScheduler.roundOut (sch : NewScheduler) (final : RunState) :
    NewScheduler :=
  ⟨sch.num_threads, final.thread_hosts, final.thread_hosts_processed, true⟩

/-- One interleaving step of a round: some thread calls `next()` once. -/
def RunStep (s s2 : RunState) : Prop :=
  ∃ i r, stepThread s i = some (r, s2)

/-- A task's end-of-round obligation: every thread's iterator passed the
end-of-task assertions. -/
def AllTasksCompleted (s : RunState) : Prop :=
  ∀ it ∈ s.iters, taskEndPanics s.thread_hosts it = false

/-- One completed `run_with_hosts` call on the scheduler: the entry swap,
any interleaving of `next()` calls by the threads, every task passing its
end-of-task assertions, and the `hosts_need_swap := true` at the end. -/
def CompletedRound (sch sch2 : NewScheduler) : Prop :=
  ∃ final : RunState,
    Relation.ReflTransGen RunStep sch.scopeEntrySwap.initRun final ∧
    AllTasksCompleted final ∧
    sch2 = sch.scopeEntrySwap.roundOut final

/-- Run a concrete schedule: a list of thread indices, each performing one
`next()` call in order. -/
def runTrace (s : RunState) : List Nat → Option RunState
  | [] => some s
  | i :: rest =>
    match stepThread s i with
    | none => none
    | some (_, s2) => runTrace s2 rest

/-- Multiset of the hosts held in a vector of queues. -/
def queuesHosts (qs : List ArrayQueue) : Multiset Nat :=
  (qs.map (fun q => (q.items : Multiset Nat))).sum

/-- Multiset of the hosts held in flight by iterators. -/
def itersHosts (its : List HostIter) : Multiset Nat :=
  (its.map (fun it => (it.current_host.toList : Multiset Nat))).sum

/-- Multiset of an optional host. -/
def optionHosts (o : Option Nat) : Multiset Nat :=
  (o.toList : Multiset Nat)

/-- Multiset of all hosts in a round state: both queue vectors plus the
hosts in flight. -/
def runHosts (s : RunState) : Multiset Nat :=
  queuesHosts s.thread_hosts + queuesHosts s.thread_hosts_processed +
    itersHosts s.iters

/-- Multiset of all hosts held across the scheduler's queues. -/
def schedHosts (sch : NewScheduler) : Multiset Nat :=
  queuesHosts sch.thread_hosts + queuesHosts sch.thread_hosts_processed

/-- Capacity invariant: every queue of the vector has capacity `c`. -/
def capsAll (qs : List ArrayQueue) (c : Nat) : Prop :=
  ∀ q ∈ qs, q.cap = c

/-- Invariant of a round state with host population `H`: both queue
vectors have capacity `H` everywhere, at most `H` hosts exist in total,
iterator `i` belongs to thread `i`, and there is one "to" queue per
iterator. -/
def RunInv (H : Nat) (s : RunState) : Prop :=
  capsAll s.thread_hosts H ∧ capsAll s.thread_hosts_processed H ∧
    Multiset.card (runHosts s) ≤ H ∧
    (∀ i it, s.iters.get? i = some it → it.this_thread_index = i) ∧
    s.iters.length ≤ s.thread_hosts_processed.length

/-- Specification-side description of round-robin placement: the hosts
whose 0-based input position `k` (counting from `k0`) satisfies
`k mod t = j`, in input order. -/
def roundRobinSlice (t j : Nat) : Nat → List Nat → List Nat
  | _, [] => []
  | k0, h :: hs =>
    if k0 % t = j then h :: roundRobinSlice t j (k0 + 1) hs
    else roundRobinSlice t j (k0 + 1) hs

/-! ## Theorems -/

/-- Claim C5, counterexample: the claim quantifies over all `n ≥ 0`, but at
`n = 60 * 2^32 * 10^9` nanoseconds the minute count reaches `2^32`, the
`u32::try_from(whole_mins)` in `TimeParts::from_nanos` fails and the
`unwrap` panics, so no parts are yielded. -/
theorem C5_counterexample :
    TimeParts.from_nanos (60 * 2 ^ 32 * 1000000000) = none := by
  decide

/-- Claim C5 (amended): for every `n` whose whole-minute count fits in
`u32` (in particular for every `n` below `60 * 2^32 * 10^9`),
`TimeParts.from_nanos n` yields parts computed by the chain total
nanoseconds to whole seconds to whole minutes to whole hours, with
`mins ≤ 59`, `secs ≤ 59`, `nanos < 10^9` and recomposition equal to `n`;
and on the spec's scenario `from_nanos (10^9 + 3600*10^9 + 60*10^9 + 1)`
the parts are `{hours 1, mins 1, secs 1, nanos 1}`. -/
theorem C5_time_decomposition :
    (∀ n : Nat, n / 1000000000 / 60 < 2 ^ 32 →
      TimeParts.from_nanos n =
        some ⟨n / 1000000000 / 60 / 60, n / 1000000000 / 60 % 60,
          n / 1000000000 % 60, n % 1000000000⟩ ∧
      n / 1000000000 / 60 % 60 ≤ 59 ∧ n / 1000000000 % 60 ≤ 59 ∧
      n % 1000000000 < 1000000000 ∧
      (n / 1000000000 / 60 / 60) * 3600000000000 +
        (n / 1000000000 / 60 % 60) * 60000000000 +
        (n / 1000000000 % 60) * 1000000000 + n % 1000000000 = n) ∧
    TimeParts.from_nanos (1000000000 + 3600 * 1000000000 + 60 * 1000000000 + 1) =
      some ⟨1, 1, 1, 1⟩ := by
  constructor
  · intro n h
    refine ⟨?_, by omega, by omega, by omega, by omega⟩
    have h1 : n / 1000000000 < 2 ^ 64 := by omega
    simp only [TimeParts.from_nanos, if_pos h1, if_pos h]
    have h2 : n - n / 1000000000 * 1000000000 = n % 1000000000 := by omega
    rw [if_pos (by omega)]
    simp only [Option.some.injEq, TimeParts.mk.injEq]
    refine ⟨by trivial, by omega, by omega, by omega⟩
  · decide

/-- Claim C5, witness: the amended theorem applied at the spec's concrete
scenario input. -/
theorem C5_time_decomposition_witness :
    3661000000001 / 1000000000 / 60 < 2 ^ 32 ∧
    TimeParts.from_nanos 3661000000001 =
      some ⟨3661000000001 / 1000000000 / 60 / 60,
        3661000000001 / 1000000000 / 60 % 60,
        3661000000001 / 1000000000 % 60, 3661000000001 % 1000000000⟩ :=
  ⟨by decide, (C5_time_decomposition.1 3661000000001 (by decide)).1⟩

/-- Drain loop invariant: with `toflush` equal to the number of records of
the initial segment `q0` still in the queue, any interleaving of writer
pops and producer pushes with exactly `q0.length` pops writes `q0` in FIFO
order after the pending records `pend`, and leaves exactly the pushed
records queued. -/
theorem drainRun_inv {R : Type} :
    ∀ (evs : List (DrainEv R)) (q0 pend w : List R),
      popCount evs = q0.length →
      drainRun evs ⟨q0 ++ pend, w, q0.length⟩ =
        some ⟨pend ++ pushedRecords evs, w ++ q0, 0⟩ := by
  intro evs
  induction evs with
  | nil =>
    intro q0 pend w hpc
    have hq0 : q0 = [] := by
      cases q0 with
      | nil => rfl
      | cons a as => simp [popCount] at hpc
    subst hq0
    simp [drainRun, pushedRecords]
  | cons ev rest ih =>
    intro q0 pend w hpc
    cases ev with
    | push r =>
      have hpc2 : popCount rest = q0.length := by simpa [popCount] using hpc
      have step : drainStep (⟨q0 ++ pend, w, q0.length⟩ : DrainState R)
          (.push r) = some ⟨q0 ++ (pend ++ [r]), w, q0.length⟩ := by
        simp [drainStep]
      rw [drainRun, step]
      simp only [Option.bind_eq_bind, Option.some_bind]
      rw [ih q0 (pend ++ [r]) w hpc2]
      simp [pushedRecords]
    | pop =>
      cases q0 with
      | nil => simp [popCount] at hpc
      | cons h t =>
        have hpc2 : popCount rest = t.length := by
          simp [popCount, List.length_cons] at hpc
          omega
        have step : drainStep (⟨(h :: t) ++ pend, w, (h :: t).length⟩ :
            DrainState R) .pop = some ⟨t ++ pend, w ++ [h], t.length⟩ := by
          simp [drainStep]
        rw [drainRun, step]
        simp only [Option.bind_eq_bind, Option.some_bind]
        rw [ih t pend (w ++ [h]) hpc2]
        simp [pushedRecords]

/-- Claim C2: if the queue holds the records `q0` when `flush_records`
begins, the writer samples `toflush = q0.length` once and any interleaving
of its `q0.length` pops with concurrent producer pushes succeeds (every
pop returns a record, so the `pop().unwrap()` cannot fail), writes exactly
`q0` in queue FIFO order, and leaves exactly the records pushed during the
drain queued for a later drain. -/
theorem C2_drain_exact_n {R : Type} (q0 : List R) (evs : List (DrainEv R))
    (hpc : popCount evs = q0.length) :
    drainRun evs ⟨q0, [], q0.length⟩ = some ⟨pushedRecords evs, q0, 0⟩ := by
  have h := drainRun_inv evs q0 [] [] hpc
  simpa using h

/-- Claim C2, witness: a queue of two records drained while one more
arrives between the two pops. -/
theorem C2_drain_exact_n_witness :
    popCount [DrainEv.pop, DrainEv.push 9, DrainEv.pop] = [1, 2].length ∧
    drainRun [DrainEv.pop, DrainEv.push 9, DrainEv.pop]
        ⟨[1, 2], [], [1, 2].length⟩ =
      some ⟨pushedRecords [DrainEv.pop, DrainEv.push 9, DrainEv.pop],
        [1, 2], 0⟩ :=
  ⟨by decide,
    C2_drain_exact_n [1, 2] [DrainEv.pop, DrainEv.push 9, DrainEv.pop]
      (by decide)⟩

/-- Characterization of the command issued by one `log` call that passes
the level filter: the record is appended, and the command is synchronous
iff the error level or sync threshold applies, asynchronous iff otherwise
the async threshold or disabled buffering applies, absent otherwise. -/
theorem log_cmd_spec {R : Type} (s : LoggerState R) (level : Level) (r : R)
    (ml : LevelFilter) (hen : ShadowLogger.enabled level ml = true) :
    (ShadowLogger.log s level r ml).1.records = s.records ++ [r] ∧
    ((ShadowLogger.log s level r ml).2 = some .sync ↔
      level = .error ∨
        s.records.length + 1 > SYNC_FLUSH_QD_LINES_THRESHOLD) ∧
    ((ShadowLogger.log s level r ml).2 = some .async ↔
      ¬(level = .error ∨
          s.records.length + 1 > SYNC_FLUSH_QD_LINES_THRESHOLD) ∧
        (s.records.length + 1 > ASYNC_FLUSH_QD_LINES_THRESHOLD ∨
          s.buffering_enabled = false)) ∧
    ((ShadowLogger.log s level r ml).2 = some .noCmd ↔
      ¬(level = .error ∨
          s.records.length + 1 > SYNC_FLUSH_QD_LINES_THRESHOLD) ∧
        ¬(s.records.length + 1 > ASYNC_FLUSH_QD_LINES_THRESHOLD ∨
          s.buffering_enabled = false)) := by
  have hlog : ShadowLogger.log s level r ml =
      (⟨s.records ++ [r], s.buffering_enabled⟩,
        some (ShadowLogger.flushPolicy level (s.records.length + 1)
          s.buffering_enabled)) := by
    simp [ShadowLogger.log, hen]
  rw [hlog]
  simp only [ShadowLogger.flushPolicy]
  refine ⟨by trivial, ?_, ?_, ?_⟩ <;>
    split_ifs with h1 h2 <;>
      simp_all [Bool.not_eq_true]

/-- Claim C3: the thresholds are `1_000_000` and `100_000`, and for every
`log` call that passes the level filter the record is pushed and the
issued command is synchronous iff the level is the error level or the
queue length exceeds the sync threshold; otherwise asynchronous iff the
queue length exceeds the async threshold or buffering is disabled;
otherwise no command is sent. -/
theorem C3_producer_flush_policy :
    SYNC_FLUSH_QD_LINES_THRESHOLD = 1000000 ∧
    ASYNC_FLUSH_QD_LINES_THRESHOLD = 100000 ∧
    ∀ (R : Type) (s : LoggerState R) (level : Level) (r : R)
      (ml : LevelFilter), ShadowLogger.enabled level ml = true →
      (ShadowLogger.log s level r ml).1.records = s.records ++ [r] ∧
      ((ShadowLogger.log s level r ml).2 = some .sync ↔
        level = .error ∨
          s.records.length + 1 > SYNC_FLUSH_QD_LINES_THRESHOLD) ∧
      ((ShadowLogger.log s level r ml).2 = some .async ↔
        ¬(level = .error ∨
            s.records.length + 1 > SYNC_FLUSH_QD_LINES_THRESHOLD) ∧
          (s.records.length + 1 > ASYNC_FLUSH_QD_LINES_THRESHOLD ∨
            s.buffering_enabled = false)) ∧
      ((ShadowLogger.log s level r ml).2 = some .noCmd ↔
        ¬(level = .error ∨
            s.records.length + 1 > SYNC_FLUSH_QD_LINES_THRESHOLD) ∧
          ¬(s.records.length + 1 > ASYNC_FLUSH_QD_LINES_THRESHOLD ∨
            s.buffering_enabled = false)) :=
  ⟨rfl, rfl, fun R s level r ml hen => log_cmd_spec s level r ml hen⟩

/-- Claim C3, witness: an error-level record on an empty queue triggers a
synchronous flush. -/
theorem C3_producer_flush_policy_witness :
    ShadowLogger.enabled .error .info = true ∧
    (ShadowLogger.log (⟨[], true⟩ : LoggerState Nat) .error 0 .info).2 =
      some .sync :=
  ⟨by decide,
    ((C3_producer_flush_policy.2.2 Nat ⟨[], true⟩ .error 0 .info
      (by decide)).2.1).2 (Or.inl rfl)⟩

/-- Claim C10: a freshly constructed `ShadowLogger` has buffering disabled,
so every `log` call that passes the level filter issues some flush command,
and one that does not meet the synchronous-flush condition issues an
asynchronous flush. -/
theorem C10_initial_buffering_disabled :
    (∀ R : Type, (ShadowLogger.new R).buffering_enabled = false) ∧
    ∀ (R : Type) (s : LoggerState R) (level : Level) (r : R)
      (ml : LevelFilter), s.buffering_enabled = false →
      ShadowLogger.enabled level ml = true →
      ((ShadowLogger.log s level r ml).2 = some .sync ∨
        (ShadowLogger.log s level r ml).2 = some .async) ∧
      (¬(level = .error ∨
          s.records.length + 1 > SYNC_FLUSH_QD_LINES_THRESHOLD) →
        (ShadowLogger.log s level r ml).2 = some .async) := by
  refine ⟨fun R => rfl, ?_⟩
  intro R s level r ml hbuf hen
  obtain ⟨-, hsync, hasync, -⟩ := log_cmd_spec s level r ml hen
  by_cases h : level = .error ∨
      s.records.length + 1 > SYNC_FLUSH_QD_LINES_THRESHOLD
  · exact ⟨Or.inl (hsync.2 h), fun hc => absurd h hc⟩
  · have ha : (ShadowLogger.log s level r ml).2 = some .async :=
      hasync.2 ⟨h, Or.inr hbuf⟩
    exact ⟨Or.inr ha, fun _ => ha⟩

/-- Claim C10, witness: an info-level record logged on a fresh logger
issues an asynchronous flush. -/
theorem C10_initial_buffering_disabled_witness :
    (ShadowLogger.new Nat).buffering_enabled = false ∧
    (ShadowLogger.log (ShadowLogger.new Nat) .info 0 .info).2 =
      some .async :=
  ⟨by decide,
    (C10_initial_buffering_disabled.2 Nat (ShadowLogger.new Nat) .info 0
      .info (by decide) (by decide)).2 (by decide)⟩

/-- Auxiliary: `takeWhile` passes over a prefix whose elements all satisfy
the predicate. -/
theorem takeWhile_append_all {α : Type} (p : α → Bool) :
    ∀ (xs ys : List α), (∀ x ∈ xs, p x = true) →
      (xs ++ ys).takeWhile p = xs ++ ys.takeWhile p := by
  intro xs
  induction xs with
  | nil => simp
  | cons a as ih =>
    intro ys hall
    have ha : p a = true := hall a (by simp)
    simp only [List.cons_append, List.takeWhile_cons, ha, if_true]
    rw [ih ys (fun x hx => hall x (by simp [hx]))]

/-- Auxiliary: the basename of a string without slashes is the string
itself. -/
theorem basename_no_slash (s : String) (h : '/' ∉ s.data) :
    basename s = s := by
  have hall : ∀ c ∈ s.data.reverse, (c ≠ '/' : Bool) = true := by
    intro c hc
    have : c ∈ s.data := List.mem_reverse.mp hc
    simp only [decide_eq_true_eq]
    intro he
    exact h (he ▸ this)
  have : s.data.reverse.takeWhile (fun c => (c ≠ '/' : Bool)) =
      s.data.reverse := List.takeWhile_eq_self_iff.mpr hall
  show String.mk (basenameChars s.data) = s
  rw [basenameChars, this, List.reverse_reverse]

/-- Auxiliary: the basename of `a ++ "/" ++ b` with `b` slash-free is
`b`. -/
theorem basename_append (a b : String) (h : '/' ∉ b.data) :
    basename (a ++ "/" ++ b) = b := by
  have hdata : (a ++ "/" ++ b).data = a.data ++ '/' :: b.data := by
    rw [String.data_append, String.data_append]
    have hs : ("/" : String).data = ['/'] := by decide
    rw [hs, List.append_assoc]
    rfl
  have hall : ∀ c ∈ b.data.reverse, (c ≠ '/' : Bool) = true := by
    intro c hc
    have : c ∈ b.data := List.mem_reverse.mp hc
    simp only [decide_eq_true_eq]
    intro he
    exact h (he ▸ this)
  show String.mk (basenameChars (a ++ "/" ++ b).data) = b
  rw [hdata, basenameChars, List.reverse_append, List.reverse_cons,
    List.append_assoc]
  rw [takeWhile_append_all _ _ _ hall]
  simp [List.takeWhile_cons]

/-- Claim C4: the writer's output line for the spec's scenario-3 record is
exactly the spec's string (wall clock with six microsecond digits, thread
field, simulated time with nine nanosecond digits, level, host, file
basename and line, module, message, newline); and the recorded path is
narrowed to the substring after its last '/', or kept whole without a
slash. -/
theorem C4_log_line_format :
    formatRecord ⟨.info, some "foo/bar.rs", some "m", some 12, "hi",
        1500000000, some 500000, some 7, some "srv~10.0.0.1"⟩ =
      some "00:00:01.500000 [thread-7] 00:00:00.000500000 [INFO] [srv~10.0.0.1] [bar.rs:12] [m] hi\n" ∧
    (∀ s : String, '/' ∉ s.data → basename s = s) ∧
    (∀ a b : String, '/' ∉ b.data → basename (a ++ "/" ++ b) = b) := by
  refine ⟨by decide, basename_no_slash, basename_append⟩

/-- Claim C4, witness: the basename facts applied to the scenario path
`foo/bar.rs`. -/
theorem C4_log_line_format_witness :
    '/' ∉ "bar.rs".data ∧ basename ("foo" ++ "/" ++ "bar.rs") = "bar.rs" :=
  ⟨by decide, C4_log_line_format.2.2 "foo" "bar.rs" (by decide)⟩

/-- Claim C9: a syscall number matched by no arm falls to the wildcard and
returns `Err(ENOSYS)` (with a warning); every explicitly unsupported
number — among them chdir (80), sendfile (40) and splice (275) — returns
`Err(ENOSYS)` (with a warning); and clock_gettime (228), gettimeofday
(96), sched_yield (24) and time (201) panic because they must have been
intercepted in the shim. -/
theorem C9_syscall_dispatch :
    (∀ n : Int, n ∉ handledSyscallNums → n ∉ shadowSyscallNums →
      n ∉ unsupportedSyscallNums → n ∉ shimOnlySyscallNums →
      n ∉ nativeSyscallNums →
      SyscallHandler.syscall n = .unmappedEnosys ∧
        (SyscallHandler.syscall n).returnsEnosys = some false) ∧
    (∀ n ∈ unsupportedSyscallNums,
      SyscallHandler.syscall n = .unsupportedEnosys ∧
        (SyscallHandler.syscall n).returnsEnosys = some false) ∧
    SyscallHandler.syscall 80 = .unsupportedEnosys ∧
    SyscallHandler.syscall 40 = .unsupportedEnosys ∧
    SyscallHandler.syscall 275 = .unsupportedEnosys ∧
    SyscallHandler.syscall 228 = .shimOnlyPanic ∧
    SyscallHandler.syscall 96 = .shimOnlyPanic ∧
    SyscallHandler.syscall 24 = .shimOnlyPanic ∧
    SyscallHandler.syscall 201 = .shimOnlyPanic := by
  refine ⟨?_, by decide, by decide, by decide, by decide, by decide,
    by decide, by decide, by decide⟩
  intro n h1 h2 h3 h4 h5
  have hout : SyscallHandler.syscall n = .unmappedEnosys := by
    simp [SyscallHandler.syscall, h1, h2, h3, h4, h5]
  exact ⟨hout, by rw [hout]; rfl⟩

/-- Claim C9, witness: syscall number 9999 is matched by no arm and
returns `Err(ENOSYS)`. -/
theorem C9_syscall_dispatch_witness :
    SyscallHandler.syscall 9999 = .unmappedEnosys ∧
    (SyscallHandler.syscall 9999).returnsEnosys = some false :=
  C9_syscall_dispatch.1 9999 (by decide) (by decide) (by decide)
    (by decide) (by decide)

/-- Auxiliary: replacing one list element exchanges its contribution to a
multiset-valued map-sum. -/
theorem mapSum_set {α : Type} (f : α → Multiset Nat) :
    ∀ (l : List α) (j : Nat) (a b : α), l.get? j = some a →
      ((l.set j b).map f).sum + f a = (l.map f).sum + f b := by
  intro l
  induction l with
  | nil => intro j a b h; simp at h
  | cons x xs ih =>
    intro j a b h
    cases j with
    | zero =>
      simp only [List.get?] at h
      obtain rfl : x = a := by injection h
      simp [List.set]
      abel
    | succ k =>
      simp only [List.get?] at h
      have := ih k a b h
      simp only [List.set, List.map_cons, List.sum_cons]
      rw [add_assoc, this]
      abel

/-- Auxiliary: a member's contribution is below the map-sum. -/
theorem mapSum_le {α : Type} (f : α → Multiset Nat) {a : α} {l : List α}
    (h : a ∈ l) : f a ≤ (l.map f).sum := by
  induction l with
  | nil => simp at h
  | cons x xs ih =>
    rcases List.mem_cons.mp h with h1 | h2
    · subst h1
      simp only [List.map_cons, List.sum_cons]
      exact le_add_of_nonneg_right (Multiset.zero_le _)
    · simp only [List.map_cons, List.sum_cons]
      exact le_add_of_nonneg_left (Multiset.zero_le _) |>.trans
        (add_le_add_left (ih h2) _) |>.trans (le_of_eq rfl)

/-- Auxiliary: a successful push appends at the back and needed spare
capacity. -/
theorem push_eq {q q2 : ArrayQueue} {h : Nat} (hp : q.push h = some q2) :
    q2 = ⟨q.cap, q.items ++ [h]⟩ ∧ q.items.length < q.cap := by
  unfold ArrayQueue.push at hp
  split_ifs at hp with hlt
  · exact ⟨by injection hp with h2; exact h2.symm, hlt⟩

/-- Auxiliary: a push below capacity succeeds. -/
theorem push_of_lt {q : ArrayQueue} {h : Nat}
    (hlt : q.items.length < q.cap) :
    q.push h = some ⟨q.cap, q.items ++ [h]⟩ := by
  unfold ArrayQueue.push
  rw [if_pos hlt]

/-- Auxiliary: a successful pop takes the front. -/
theorem pop_eq {q q2 : ArrayQueue} {h : Nat} (hp : q.pop = some (h, q2)) :
    q.items = h :: q2.items ∧ q2.cap = q.cap := by
  unfold ArrayQueue.pop at hp
  cases hi : q.items with
  | nil => rw [hi] at hp; exact absurd hp (by simp)
  | cons x xs =>
    rw [hi] at hp
    injection hp with hp2
    injection hp2 with hx hq
    subst hx
    rw [← hq]
    exact ⟨rfl, rfl⟩

/-- Auxiliary: updating one position with a queue of the common capacity
preserves the capacity invariant. -/
theorem capsAll_set {qs : List ArrayQueue} {H j : Nat} {q2 : ArrayQueue}
    (h : capsAll qs H) (h2 : q2.cap = H) : capsAll (qs.set j q2) H := by
  intro q hq
  rcases List.mem_or_eq_of_mem_set hq with hmem | rfl
  · exact h q hmem
  · exact h2

/-- Unfolding of the scan loop past the end of the queue vector. -/
theorem nextScan_stop {fromq : List ArrayQueue} {this off : Nat}
    (h : ¬off < fromq.length) : nextScan fromq this off = (none, off, fromq) := by
  unfold nextScan
  rw [Nat.sub_eq_zero_of_le (Nat.le_of_not_lt h)]
  rfl

/-- Unfolding of the scan loop on a successful pop. -/
theorem nextScan_hit {fromq : List ArrayQueue} {this off host : Nat}
    {q2 : ArrayQueue} (h : off < fromq.length)
    (hb : (fromq.get? ((this + off) % fromq.length)).bind ArrayQueue.pop =
      some (host, q2)) :
    nextScan fromq this off =
      (some host, off, fromq.set ((this + off) % fromq.length) q2) := by
  unfold nextScan
  have hf : fromq.length - off = (fromq.length - (off + 1)) + 1 := by omega
  rw [hf]
  simp only [nextScanFuel]
  rw [if_pos h]
  simp only [hb]

/-- Unfolding of the scan loop on an empty queue. -/
theorem nextScan_miss {fromq : List ArrayQueue} {this off : Nat}
    (h : off < fromq.length)
    (hb : (fromq.get? ((this + off) % fromq.length)).bind ArrayQueue.pop =
      none) :
    nextScan fromq this off = nextScan fromq this (off + 1) := by
  unfold nextScan
  have hf : fromq.length - off = (fromq.length - (off + 1)) + 1 := by omega
  rw [hf]
  simp only [nextScanFuel]
  rw [if_pos h]
  simp only [hb]

/-- Scan loop bookkeeping: the popped host moves out of the queues and
nothing else changes — the multiset of queued hosts loses exactly the
yield, the vector length and capacities are preserved, and the offset only
advances. -/
theorem nextScan_props (fromq : List ArrayQueue) (this : Nat) :
    ∀ fuel off, fromq.length - off ≤ fuel →
      queuesHosts (nextScan fromq this off).2.2 +
          optionHosts (nextScan fromq this off).1 = queuesHosts fromq ∧
      (nextScan fromq this off).2.2.length = fromq.length ∧
      (∀ H, capsAll fromq H → capsAll (nextScan fromq this off).2.2 H) ∧
      off ≤ (nextScan fromq this off).2.1 := by
  intro fuel
  induction fuel with
  | zero =>
    intro off h
    have hstop : ¬off < fromq.length := by omega
    rw [nextScan_stop hstop]
    exact ⟨by simp [optionHosts], rfl, fun H hc => hc, le_refl off⟩
  | succ n ih =>
    intro off h
    by_cases hlt : off < fromq.length
    · cases hb : (fromq.get? ((this + off) % fromq.length)).bind
          ArrayQueue.pop with
      | none =>
        rw [nextScan_miss hlt hb]
        obtain ⟨h1, h2, h3, h4⟩ := ih (off + 1) (by omega)
        exact ⟨h1, h2, h3, by omega⟩
      | some p =>
        obtain ⟨host, q2⟩ := p
        rw [nextScan_hit hlt hb]
        obtain ⟨q, hget, hpop⟩ := Option.bind_eq_some.mp hb
        obtain ⟨hitems, hcap⟩ := pop_eq hpop
        have hms := mapSum_set (fun q => (q.items : Multiset Nat)) fromq
          ((this + off) % fromq.length) q q2 hget
        refine ⟨?_, by simp [List.length_set], ?_, le_refl off⟩
        · show queuesHosts (fromq.set ((this + off) % fromq.length) q2) +
            optionHosts (some host) = queuesHosts fromq
          have hq : (q.items : Multiset Nat) =
              optionHosts (some host) + (q2.items : Multiset Nat) := by
            rw [hitems]
            simp [optionHosts]
          have key : queuesHosts (fromq.set ((this + off) % fromq.length) q2) +
              (optionHosts (some host) + (q2.items : Multiset Nat)) =
              queuesHosts fromq + (q2.items : Multiset Nat) := by
            rw [← hq]
            exact hms
          rw [← add_assoc] at key
          exact add_right_cancel key
        · intro H hc
          exact capsAll_set hc (hcap.trans (hc q (List.get?_mem hget)))
    · rw [nextScan_stop hlt]
      exact ⟨by simp [optionHosts], rfl, fun H hc => hc, le_refl off⟩

/-- Scan completion characterization: the scan yields no host exactly when
every queue in the remaining scan range is empty. -/
theorem nextScan_none_iff (fromq : List ArrayQueue) (this : Nat) :
    ∀ fuel off, fromq.length - off ≤ fuel →
      ((nextScan fromq this off).1 = none ↔
        ∀ o q, off ≤ o → o < fromq.length →
          fromq.get? ((this + o) % fromq.length) = some q →
          q.items = []) := by
  intro fuel
  induction fuel with
  | zero =>
    intro off h
    have hstop : ¬off < fromq.length := by omega
    rw [nextScan_stop hstop]
    simp only [true_iff]
    intro o q h1 h2 _
    omega
  | succ n ih =>
    intro off h
    by_cases hlt : off < fromq.length
    · obtain ⟨q, hget⟩ : ∃ q,
          fromq.get? ((this + off) % fromq.length) = some q := by
        have : (this + off) % fromq.length < fromq.length :=
          Nat.mod_lt _ (by omega)
        exact List.get?_eq_get this ▸ ⟨_, rfl⟩
      cases hpop : q.pop with
      | some p =>
        obtain ⟨host, q2⟩ := p
        have hb : (fromq.get? ((this + off) % fromq.length)).bind
            ArrayQueue.pop = some (host, q2) := by
          rw [hget]
          exact hpop
        rw [nextScan_hit hlt hb]
        refine iff_of_false (by simp) (fun hall => ?_)
        have hnil := hall off q (le_refl off) hlt hget
        have h2 := (pop_eq hpop).1
        rw [hnil] at h2
        exact absurd h2 (by simp)
      | none =>
        have hqi : q.items = [] := by
          unfold ArrayQueue.pop at hpop
          cases hi : q.items with
          | nil => rfl
          | cons x xs => rw [hi] at hpop; exact absurd hpop (by simp)
        have hb : (fromq.get? ((this + off) % fromq.length)).bind
            ArrayQueue.pop = none := by
          rw [hget]
          exact hpop
        rw [nextScan_miss hlt hb]
        rw [ih (off + 1) (by omega)]
        constructor
        · intro hall o q2 h1 h2 hget2
          rcases Nat.eq_or_lt_of_le h1 with rfl | hgt
          · rw [hget2] at hget
            injection hget with he
            rw [he]
            exact hqi
          · exact hall o q2 hgt h2 hget2
        · intro hall o q2 h1 h2 hget2
          exact hall o q2 (by omega) h2 hget2
    · rw [nextScan_stop hlt]
      simp only [true_iff]
      intro o q h1 h2 _
      omega

/-- Scan over all-empty queues: no host is yielded, the offset runs to the
end of the vector, and the queues are untouched. -/
theorem nextScan_all_empty (fromq : List ArrayQueue) (this : Nat)
    (hall : ∀ q ∈ fromq, q.items = []) :
    ∀ fuel off, fromq.length - off ≤ fuel →
      nextScan fromq this off = (none, max fromq.length off, fromq) := by
  intro fuel
  induction fuel with
  | zero =>
    intro off h
    have hstop : ¬off < fromq.length := by omega
    rw [nextScan_stop hstop]
    have : max fromq.length off = off := by omega
    rw [this]
  | succ n ih =>
    intro off h
    by_cases hlt : off < fromq.length
    · obtain ⟨q, hget⟩ : ∃ q,
          fromq.get? ((this + off) % fromq.length) = some q := by
        have : (this + off) % fromq.length < fromq.length :=
          Nat.mod_lt _ (by omega)
        exact List.get?_eq_get this ▸ ⟨_, rfl⟩
      have hqi : q.items = [] := hall q (List.get?_mem hget)
      have hb : (fromq.get? ((this + off) % fromq.length)).bind
          ArrayQueue.pop = none := by
        rw [hget]
        simp [ArrayQueue.pop, hqi]
      rw [nextScan_miss hlt hb, ih (off + 1) (by omega)]
      have : max fromq.length (off + 1) = max fromq.length off := by omega
      rw [this]
    · rw [nextScan_stop hlt]
      have : max fromq.length off = off := by omega
      rw [this]

/-- Deposit bookkeeping: a successful `return_current_host` clears the
iterator's held host, appends it (if any) to the "to" queue, and preserves
the thread index, the offset and the capacity. -/
theorem returnCurrentHost_spec {toq toq2 : ArrayQueue} {it it2 : HostIter}
    (hr : returnCurrentHost toq it = some (toq2, it2)) :
    it2 = ⟨it.this_thread_index, it.thread_index_iter_offset, none⟩ ∧
    toq2.cap = toq.cap ∧
    (toq2.items : Multiset Nat) =
      (toq.items : Multiset Nat) + optionHosts it.current_host := by
  unfold returnCurrentHost at hr
  cases hcur : it.current_host with
  | none =>
    rw [hcur] at hr
    injection hr with hr2
    injection hr2 with ha hb
    subst ha
    subst hb
    refine ⟨?_, rfl, by simp [optionHosts]⟩
    cases it with
    | mk a b c =>
      simp only at hcur
      rw [hcur]
  | some h =>
    rw [hcur] at hr
    dsimp only at hr
    cases hp : toq.push h with
    | none => rw [hp] at hr; exact absurd hr (by simp)
    | some q2 =>
      rw [hp] at hr
      injection hr with hr2
      injection hr2 with ha hb
      subst ha
      subst hb
      obtain ⟨hq2, -⟩ := push_eq hp
      subst hq2
      refine ⟨rfl, rfl, ?_⟩
      rfl

/-- Deposit success: `return_current_host` succeeds when no host is held,
or when the "to" queue has spare capacity. -/
theorem returnCurrentHost_some {toq : ArrayQueue} {it : HostIter}
    (h : it.current_host = none ∨ toq.items.length < toq.cap) :
    ∃ p, returnCurrentHost toq it = some p := by
  unfold returnCurrentHost
  cases hcur : it.current_host with
  | none => exact ⟨_, rfl⟩
  | some x =>
    rcases h with hnone | hlt
    · rw [hcur] at hnone
      exact absurd hnone (by simp)
    · dsimp only
      rw [push_of_lt hlt]
      exact ⟨_, rfl⟩

/-- One `next()` call conserves the multiset of hosts across the queues
and the in-flight slots. -/
theorem stepThread_conserve {s : RunState} {i : Nat} {r : Option Nat}
    {s2 : RunState} (hstep : stepThread s i = some (r, s2)) :
    runHosts s2 = runHosts s := by
  unfold stepThread at hstep
  cases hit : s.iters.get? i with
  | none => rw [hit] at hstep; exact absurd hstep (by simp)
  | some it =>
    rw [hit] at hstep
    dsimp only at hstep
    cases htoq : s.thread_hosts_processed.get? it.this_thread_index with
    | none => rw [htoq] at hstep; exact absurd hstep (by simp)
    | some toq =>
      rw [htoq] at hstep
      dsimp only at hstep
      cases hret : returnCurrentHost toq it with
      | none => rw [hret] at hstep; exact absurd hstep (by simp)
      | some p =>
        obtain ⟨toq2, it2⟩ := p
        rw [hret] at hstep
        dsimp only at hstep
        rcases hscan : nextScan s.thread_hosts it2.this_thread_index
            it2.thread_index_iter_offset with ⟨res, off2, fromq2⟩
        rw [hscan] at hstep
        dsimp only at hstep
        injection hstep with hstep2
        injection hstep2 with h1 h2
        subst h1
        subst h2
        obtain ⟨hit2, hcap2, hitems2⟩ := returnCurrentHost_spec hret
        have eA : queuesHosts fromq2 + optionHosts res =
            queuesHosts s.thread_hosts := by
          have hp := (nextScan_props s.thread_hosts it2.this_thread_index
            (s.thread_hosts.length - it2.thread_index_iter_offset)
            it2.thread_index_iter_offset (le_refl _)).1
          rw [hscan] at hp
          exact hp
        have eB : queuesHosts (s.thread_hosts_processed.set
            it.this_thread_index toq2) =
            queuesHosts s.thread_hosts_processed +
              optionHosts it.current_host := by
          have eB0 := mapSum_set (fun q => (q.items : Multiset Nat))
            s.thread_hosts_processed it.this_thread_index toq toq2 htoq
          have eB1 : queuesHosts (s.thread_hosts_processed.set
              it.this_thread_index toq2) + (toq.items : Multiset Nat) =
              (queuesHosts s.thread_hosts_processed +
                optionHosts it.current_host) +
                (toq.items : Multiset Nat) := by
            have hsw : (queuesHosts s.thread_hosts_processed +
                optionHosts it.current_host) + (toq.items : Multiset Nat) =
                queuesHosts s.thread_hosts_processed +
                  ((toq.items : Multiset Nat) +
                    optionHosts it.current_host) := by abel
            rw [hsw, ← hitems2]
            exact eB0
          exact add_right_cancel eB1
        have eC : itersHosts (s.iters.set i
              ⟨it2.this_thread_index, off2, res⟩) +
            optionHosts it.current_host =
            itersHosts s.iters + optionHosts res :=
          mapSum_set (fun it => (it.current_host.toList : Multiset Nat))
            s.iters i it ⟨it2.this_thread_index, off2, res⟩ hit
        show queuesHosts fromq2 +
            queuesHosts (s.thread_hosts_processed.set it.this_thread_index
              toq2) +
            itersHosts (s.iters.set i ⟨it2.this_thread_index, off2, res⟩) =
          runHosts s
        have key : (queuesHosts fromq2 +
            queuesHosts (s.thread_hosts_processed.set it.this_thread_index
              toq2) +
            itersHosts (s.iters.set i ⟨it2.this_thread_index, off2, res⟩)) +
            (optionHosts res + optionHosts it.current_host) =
            runHosts s + (optionHosts res + optionHosts it.current_host) := by
          rw [eB]
          calc queuesHosts fromq2 +
              (queuesHosts s.thread_hosts_processed +
                optionHosts it.current_host) +
              itersHosts (s.iters.set i
                ⟨it2.this_thread_index, off2, res⟩) +
              (optionHosts res + optionHosts it.current_host) =
              (queuesHosts fromq2 + optionHosts res) +
                queuesHosts s.thread_hosts_processed +
                (itersHosts (s.iters.set i
                  ⟨it2.this_thread_index, off2, res⟩) +
                  optionHosts it.current_host) +
                optionHosts it.current_host := by abel
            _ = queuesHosts s.thread_hosts +
                queuesHosts s.thread_hosts_processed +
                (itersHosts s.iters + optionHosts res) +
                optionHosts it.current_host := by rw [eA, eC]
            _ = runHosts s + (optionHosts res + optionHosts it.current_host) := by
                unfold runHosts
                abel
        exact add_right_cancel key

/-- One `next()` call preserves the round invariant. -/
theorem stepThread_inv {H : Nat} {s : RunState} {i : Nat} {r : Option Nat}
    {s2 : RunState} (hinv : RunInv H s)
    (hstep : stepThread s i = some (r, s2)) : RunInv H s2 := by
  obtain ⟨hcf, hct, hcard, hidx, hlen⟩ := hinv
  have hcons := stepThread_conserve hstep
  unfold stepThread at hstep
  cases hit : s.iters.get? i with
  | none => rw [hit] at hstep; exact absurd hstep (by simp)
  | some it =>
    rw [hit] at hstep
    dsimp only at hstep
    cases htoq : s.thread_hosts_processed.get? it.this_thread_index with
    | none => rw [htoq] at hstep; exact absurd hstep (by simp)
    | some toq =>
      rw [htoq] at hstep
      dsimp only at hstep
      cases hret : returnCurrentHost toq it with
      | none => rw [hret] at hstep; exact absurd hstep (by simp)
      | some p =>
        obtain ⟨toq2, it2⟩ := p
        rw [hret] at hstep
        dsimp only at hstep
        rcases hscan : nextScan s.thread_hosts it2.this_thread_index
            it2.thread_index_iter_offset with ⟨res, off2, fromq2⟩
        rw [hscan] at hstep
        dsimp only at hstep
        injection hstep with hstep2
        injection hstep2 with h1 h2
        subst h1
        subst h2
        obtain ⟨hit2, hcap2, -⟩ := returnCurrentHost_spec hret
        have hi : i < s.iters.length := (List.get?_eq_some.mp hit).1
        have hprops := nextScan_props s.thread_hosts it2.this_thread_index
          (s.thread_hosts.length - it2.thread_index_iter_offset)
          it2.thread_index_iter_offset (le_refl _)
        rw [hscan] at hprops
        refine ⟨hprops.2.2.1 H hcf, ?_, ?_, ?_, ?_⟩
        · exact capsAll_set hct
            (hcap2.trans (hct toq (List.get?_mem htoq)))
        · rw [show runHosts
              (⟨fromq2, s.thread_hosts_processed.set it.this_thread_index
                toq2, s.iters.set i ⟨it2.this_thread_index, off2, res⟩⟩ :
                RunState) = runHosts s from hcons]
          exact hcard
        · intro j it3 hget3
          by_cases hji : j = i
          · subst hji
            rw [List.get?_set_eq_of_lt _ hi] at hget3
            injection hget3 with he
            rw [← he]
            show it2.this_thread_index = j
            rw [hit2]
            exact hidx j it hit
          · rw [List.get?_set_ne _ _ (fun he => hji he.symm)] at hget3
            exact hidx j it3 hget3
        · simpa using hlen

/-- The deposit push of one `next()` call cannot fail under the round
invariant: the queues have capacity for every live host, so `stepThread`
succeeds for every valid thread index. -/
theorem stepThread_some {H : Nat} {s : RunState} {i : Nat}
    (hinv : RunInv H s) (hi : i < s.iters.length) :
    ∃ r s2, stepThread s i = some (r, s2) := by
  obtain ⟨hcf, hct, hcard, hidx, hlen⟩ := hinv
  obtain ⟨it, hit⟩ : ∃ it, s.iters.get? i = some it :=
    ⟨_, List.get?_eq_get hi⟩
  have hthis : it.this_thread_index = i := hidx i it hit
  have hi2 : it.this_thread_index < s.thread_hosts_processed.length := by
    omega
  obtain ⟨toq, htoq⟩ : ∃ toq,
      s.thread_hosts_processed.get? it.this_thread_index = some toq :=
    ⟨_, List.get?_eq_get hi2⟩
  have hsucc : it.current_host = none ∨ toq.items.length < toq.cap := by
    cases hcur : it.current_host with
    | none => exact Or.inl rfl
    | some h =>
      refine Or.inr ?_
      have hcap : toq.cap = H := hct toq (List.get?_mem htoq)
      have h1 : (toq.items : Multiset Nat) ≤
          queuesHosts s.thread_hosts_processed :=
        mapSum_le _ (List.get?_mem htoq)
      have h2 : ({h} : Multiset Nat) ≤ itersHosts s.iters := by
        have h2b := mapSum_le
          (fun it => (it.current_host.toList : Multiset Nat))
          (List.get?_mem hit)
        dsimp only at h2b
        rw [hcur] at h2b
        simpa [itersHosts] using h2b
      have hc1 : toq.items.length ≤
          Multiset.card (queuesHosts s.thread_hosts_processed) := by
        have := Multiset.card_le_card h1
        simpa using this
      have hc2 : 1 ≤ Multiset.card (itersHosts s.iters) := by
        have := Multiset.card_le_card h2
        simpa using this
      have hsum : Multiset.card (runHosts s) =
          Multiset.card (queuesHosts s.thread_hosts) +
          Multiset.card (queuesHosts s.thread_hosts_processed) +
          Multiset.card (itersHosts s.iters) := by
        unfold runHosts
        rw [Multiset.card_add, Multiset.card_add]
      omega
  obtain ⟨p, hret⟩ := returnCurrentHost_some hsucc
  obtain ⟨toq2, it2⟩ := p
  unfold stepThread
  rw [hit]
  dsimp only
  rw [htoq]
  dsimp only
  rw [hret]
  dsimp only
  rcases hscan : nextScan s.thread_hosts it2.this_thread_index
      it2.thread_index_iter_offset with ⟨res, off2, fromq2⟩
  dsimp only
  exact ⟨res, _, rfl⟩

/-- Any interleaving of `next()` calls conserves the multiset of hosts. -/
theorem runSteps_conserve {s s2 : RunState}
    (h : Relation.ReflTransGen RunStep s s2) : runHosts s2 = runHosts s := by
  induction h with
  | refl => rfl
  | tail _ hstep ih =>
    obtain ⟨i, r, hst⟩ := hstep
    rw [stepThread_conserve hst, ih]

/-- Fresh iterators hold no hosts. -/
theorem itersHosts_initIters (t : Nat) : itersHosts (initIters t) = 0 := by
  unfold itersHosts initIters
  rw [List.map_map]
  apply List.sum_eq_zero
  intro x hx
  rw [List.mem_map] at hx
  obtain ⟨i, -, rfl⟩ := hx
  rfl

/-- Completed iterators hold no hosts. -/
theorem itersHosts_completed {s : RunState} (h : AllTasksCompleted s) :
    itersHosts s.iters = 0 := by
  unfold itersHosts
  apply List.sum_eq_zero
  intro x hx
  rw [List.mem_map] at hx
  obtain ⟨it, hmem, rfl⟩ := hx
  have hp := h it hmem
  unfold taskEndPanics at hp
  rw [Bool.or_eq_false_iff] at hp
  have : it.current_host = none := by
    cases hc : it.current_host with
    | none => rfl
    | some x => rw [hc] at hp; exact absurd hp.1 (by simp)
  rw [this]
  rfl

/-- The entry swap of `NewScheduler::scope` exchanges the queue vectors
and so preserves the multiset of queued hosts. -/
theorem scopeEntrySwap_conserve (sch : NewScheduler) :
    schedHosts sch.scopeEntrySwap = schedHosts sch := by
  unfold NewScheduler.scopeEntrySwap
  split_ifs with h
  · unfold schedHosts
    exact add_comm _ _
  · rfl

/-- One completed `run_with_hosts` call conserves the multiset of hosts
held across the scheduler's queues. -/
theorem completedRound_conserve {sch sch2 : NewScheduler}
    (h : CompletedRound sch sch2) : schedHosts sch2 = schedHosts sch := by
  obtain ⟨final, hrtc, hcomp, rfl⟩ := h
  have h1 : runHosts final = runHosts sch.scopeEntrySwap.initRun :=
    runSteps_conserve hrtc
  have h2 : runHosts sch.scopeEntrySwap.initRun =
      schedHosts sch.scopeEntrySwap := by
    unfold runHosts NewScheduler.initRun schedHosts
    rw [itersHosts_initIters]
    exact add_zero _
  have h3 : schedHosts (sch.scopeEntrySwap.roundOut final) =
      runHosts final := by
    unfold schedHosts NewScheduler.roundOut runHosts
    rw [itersHosts_completed hcomp]
    exact (add_zero _).symm
  rw [h3, h1, h2, scopeEntrySwap_conserve]

/-- Claim C1: (i) across any sequence of completed `run_with_hosts` calls
the multiset of hosts held across the scheduler's queues is unchanged;
(ii) under the round invariant (queue capacities equal to the host
population, which `NewScheduler::new` establishes) every deposit push of a
`next()` call succeeds, so `stepThread` never fails for a valid thread
index; (iii) single `next()` steps preserve the round invariant and the
multiset of live hosts, every popped host being either in flight or
deposited in a "to" queue. -/
theorem C1_host_conservation :
    (∀ sch sch2 : NewScheduler,
      Relation.ReflTransGen CompletedRound sch sch2 →
      schedHosts sch2 = schedHosts sch) ∧
    (∀ (H : Nat) (s : RunState) (i : Nat), RunInv H s →
      i < s.iters.length → ∃ r s2, stepThread s i = some (r, s2)) ∧
    (∀ (H : Nat) (s : RunState) (i : Nat) (r : Option Nat) (s2 : RunState),
      RunInv H s → stepThread s i = some (r, s2) →
      RunInv H s2 ∧ runHosts s2 = runHosts s) := by
  refine ⟨?_, ?_, ?_⟩
  · intro sch sch2 h
    induction h with
    | refl => rfl
    | tail _ hstep ih => rw [completedRound_conserve hstep, ih]
  · intro H s i hinv hi
    exact stepThread_some hinv hi
  · intro H s i r s2 hinv hstep
    exact ⟨stepThread_inv hinv hstep, stepThread_conserve hstep⟩

/-- Claim C1, witness: one completed round on a one-thread scheduler
holding host 5 (two `next()` calls: pop, then deposit and exhaust)
conserves the queue multiset, and the first step succeeds under the round
invariant. -/
theorem C1_host_conservation_witness :
    schedHosts ⟨1, [⟨1, []⟩], [⟨1, [5]⟩], true⟩ =
      schedHosts ⟨1, [⟨1, [5]⟩], [⟨1, []⟩], false⟩ ∧
    ∃ r s2, stepThread
      (NewScheduler.initRun
        (NewScheduler.scopeEntrySwap ⟨1, [⟨1, [5]⟩], [⟨1, []⟩], false⟩)) 0 =
      some (r, s2) := by
  constructor
  · have s1 : RunState := ⟨[⟨1, []⟩], [⟨1, []⟩], [⟨0, 0, some 5⟩]⟩
    have step1 : RunStep
        (NewScheduler.initRun (NewScheduler.scopeEntrySwap
          ⟨1, [⟨1, [5]⟩], [⟨1, []⟩], false⟩))
        ⟨[⟨1, []⟩], [⟨1, []⟩], [⟨0, 0, some 5⟩]⟩ :=
      ⟨0, some 5, by decide⟩
    have step2 : RunStep ⟨[⟨1, []⟩], [⟨1, []⟩], [⟨0, 0, some 5⟩]⟩
        ⟨[⟨1, []⟩], [⟨1, [5]⟩], [⟨0, 1, none⟩]⟩ :=
      ⟨0, none, by decide⟩
    have hcr : CompletedRound ⟨1, [⟨1, [5]⟩], [⟨1, []⟩], false⟩
        ⟨1, [⟨1, []⟩], [⟨1, [5]⟩], true⟩ := by
      refine ⟨⟨[⟨1, []⟩], [⟨1, [5]⟩], [⟨0, 1, none⟩]⟩, ?_, ?_, rfl⟩
      · exact Relation.ReflTransGen.tail
          (Relation.ReflTransGen.single step1) step2
      · intro it hmem
        fin_cases hmem
        decide
    exact C1_host_conservation.1 _ _ (Relation.ReflTransGen.single hcr)
  · refine C1_host_conservation.2.1 1 _ 0 ?_ (by decide)
    refine ⟨by unfold capsAll; decide, by unfold capsAll; decide,
      by decide, ?_, by decide⟩
    intro i it h
    cases i with
    | zero =>
      injection h with he
      rw [← he]
    | succ n =>
      simp [List.get?] at h

/-- Auxiliary: a round-robin slice is no longer than its source list. -/
theorem roundRobinSlice_length_le (t j : Nat) :
    ∀ (k : Nat) (hs : List Nat),
      (roundRobinSlice t j k hs).length ≤ hs.length := by
  intro k hs
  induction hs generalizing k with
  | nil => simp [roundRobinSlice]
  | cons h rest ih =>
    unfold roundRobinSlice
    split_ifs with hk
    · simpa using ih (k + 1)
    · exact (ih (k + 1)).trans (by simp)

/-- Round-robin distribution characterized per queue: pushing hosts
`k0, k0+1, ...` cyclically succeeds when every queue has room for its
slice, and appends to queue `j` exactly the hosts whose index is `j`
modulo the thread count, in input order. -/
theorem distributeHosts_eq {t : Nat} (ht : 0 < t) :
    ∀ (hs : List Nat) (k : Nat) (qs : List ArrayQueue), qs.length = t →
      (∀ j q, qs.get? j = some q →
        q.items.length + (roundRobinSlice t j k hs).length ≤ q.cap) →
      ∃ qs2, distributeHosts t k hs qs = some qs2 ∧
        ∀ j q, qs.get? j = some q →
          qs2.get? j = some ⟨q.cap, q.items ++ roundRobinSlice t j k hs⟩ := by
  intro hs
  induction hs with
  | nil =>
    intro k qs hlen hcap
    refine ⟨qs, rfl, ?_⟩
    intro j q hget
    rw [show roundRobinSlice t j k [] = [] from rfl, List.append_nil]
    exact hget
  | cons h rest ih =>
    intro k qs hlen hcap
    have hj0 : k % t < qs.length := by
      rw [hlen]
      exact Nat.mod_lt _ ht
    obtain ⟨q0, hget0⟩ : ∃ q0, qs.get? (k % t) = some q0 :=
      ⟨_, List.get?_eq_get hj0⟩
    have hslice0 : roundRobinSlice t (k % t) k (h :: rest) =
        h :: roundRobinSlice t (k % t) (k + 1) rest := by
      simp [roundRobinSlice]
    have hroom : q0.items.length < q0.cap := by
      have := hcap (k % t) q0 hget0
      rw [hslice0] at this
      simp only [List.length_cons] at this
      omega
    have hpush := push_of_lt (h := h) hroom
    have hdist : distributeHosts t k (h :: rest) qs =
        distributeHosts t (k + 1) rest
          (qs.set (k % t) ⟨q0.cap, q0.items ++ [h]⟩) := by
      conv_lhs => rw [distributeHosts]
      rw [if_neg (show ¬t = 0 by omega), hget0]
      dsimp only [Option.bind]
      rw [hpush]
    have hcaps : ∀ j q,
        (qs.set (k % t) ⟨q0.cap, q0.items ++ [h]⟩).get? j = some q →
        q.items.length + (roundRobinSlice t j (k + 1) rest).length ≤
          q.cap := by
      intro j q hget
      by_cases hji : j = k % t
      · subst hji
        rw [List.get?_set_eq_of_lt _ hj0] at hget
        injection hget with he
        subst he
        have := hcap (k % t) q0 hget0
        rw [hslice0] at this
        simp at this ⊢
        omega
      · rw [List.get?_set_ne _ _ (fun he => hji he.symm)] at hget
        have := hcap j q hget
        have hne : ¬k % t = j := fun he => hji he.symm
        have hsl : roundRobinSlice t j k (h :: rest) =
            roundRobinSlice t j (k + 1) rest := by
          simp [roundRobinSlice, hne]
        rw [hsl] at this
        exact this
    obtain ⟨qs2, hrun, hchar⟩ := ih (k + 1)
      (qs.set (k % t) ⟨q0.cap, q0.items ++ [h]⟩)
      (by rw [List.length_set]; exact hlen) hcaps
    refine ⟨qs2, by rw [hdist]; exact hrun, ?_⟩
    intro j q hget
    by_cases hji : j = k % t
    · subst hji
      have hq : q = q0 := by
        rw [hget0] at hget
        injection hget with he
        exact he.symm
      subst hq
      have := hchar (k % t) ⟨q.cap, q.items ++ [h]⟩
        (List.get?_set_eq_of_lt _ hj0)
      rw [this, hslice0]
      simp
    · have := hchar j q (by
        rw [List.get?_set_ne _ _ (fun he => hji he.symm)]
        exact hget)
      rw [this]
      have hne : ¬k % t = j := fun he => hji he.symm
      have hsl : roundRobinSlice t j k (h :: rest) =
          roundRobinSlice t j (k + 1) rest := by
        simp [roundRobinSlice, hne]
      rw [hsl]

/-- Auxiliary: a successful queue-vector construction yields `t` empty
queues of the given capacity. -/
theorem newQueues_eq :
    ∀ {t cap : Nat} {qs : List ArrayQueue}, newQueues cap t = some qs →
      qs = List.replicate t ⟨cap, []⟩ := by
  intro t
  induction t with
  | zero =>
    intro cap qs h
    injection h with he
    rw [← he]
    rfl
  | succ n ih =>
    intro cap qs h
    unfold newQueues at h
    cases hn : ArrayQueue.new cap with
    | none => rw [hn] at h; exact absurd h (by simp)
    | some q =>
      rw [hn] at h
      dsimp only at h
      cases hr : newQueues cap n with
      | none => rw [hr] at h; exact absurd h (by simp)
      | some qs1 =>
        rw [hr] at h
        dsimp only at h
        injection h with he
        have hq : q = ⟨cap, []⟩ := by
          unfold ArrayQueue.new at hn
          split_ifs at hn with hc
          · injection hn with he2
            exact he2.symm
        rw [← he, hq, ih hr]
        rfl

/-- Claim C6: `NewScheduler::new` places input host number `k` (0-based)
into per-thread queue `k mod num_threads` (each queue receives, in input
order, exactly the hosts whose index is congruent to it); concretely 5
hosts over 3 threads give queues `[0,3]`, `[1,4]`, `[2]`; and after one
`run_with_hosts` in which each thread drains exactly its own queue and
returns every host, the swap on entry to the next scope restores the
identical partition. -/
theorem C6_round_robin_and_swap :
    (∀ (t : Nat) (hosts : List Nat) (sch : NewScheduler), 0 < t →
      NewScheduler.new t hosts = some sch →
      ∀ j, j < t → sch.thread_hosts.get? j =
        some ⟨hosts.length, roundRobinSlice t j 0 hosts⟩) ∧
    NewScheduler.new 3 [0, 1, 2, 3, 4] =
      some ⟨3, [⟨5, [0, 3]⟩, ⟨5, [1, 4]⟩, ⟨5, [2]⟩],
        [⟨5, []⟩, ⟨5, []⟩, ⟨5, []⟩], false⟩ ∧
    runTrace (NewScheduler.initRun (NewScheduler.scopeEntrySwap
        ⟨3, [⟨5, [0, 3]⟩, ⟨5, [1, 4]⟩, ⟨5, [2]⟩],
          [⟨5, []⟩, ⟨5, []⟩, ⟨5, []⟩], false⟩))
        [0, 1, 2, 0, 1, 2, 0, 1] =
      some ⟨[⟨5, []⟩, ⟨5, []⟩, ⟨5, []⟩],
        [⟨5, [0, 3]⟩, ⟨5, [1, 4]⟩, ⟨5, [2]⟩],
        [⟨0, 3, none⟩, ⟨1, 3, none⟩, ⟨2, 3, none⟩]⟩ ∧
    AllTasksCompleted ⟨[⟨5, []⟩, ⟨5, []⟩, ⟨5, []⟩],
      [⟨5, [0, 3]⟩, ⟨5, [1, 4]⟩, ⟨5, [2]⟩],
      [⟨0, 3, none⟩, ⟨1, 3, none⟩, ⟨2, 3, none⟩]⟩ ∧
    (NewScheduler.scopeEntrySwap (NewScheduler.roundOut
        (NewScheduler.scopeEntrySwap ⟨3, [⟨5, [0, 3]⟩, ⟨5, [1, 4]⟩,
          ⟨5, [2]⟩], [⟨5, []⟩, ⟨5, []⟩, ⟨5, []⟩], false⟩)
        ⟨[⟨5, []⟩, ⟨5, []⟩, ⟨5, []⟩],
          [⟨5, [0, 3]⟩, ⟨5, [1, 4]⟩, ⟨5, [2]⟩],
          [⟨0, 3, none⟩, ⟨1, 3, none⟩,
            ⟨2, 3, none⟩]⟩)).thread_hosts =
      [⟨5, [0, 3]⟩, ⟨5, [1, 4]⟩, ⟨5, [2]⟩] := by
  refine ⟨?_, by decide, by decide,
    by unfold AllTasksCompleted; decide, by decide⟩
  intro t hosts sch ht hnew j hj
  have hcaps0 : ∀ j q,
      (List.replicate t (⟨hosts.length, []⟩ : ArrayQueue)).get? j =
        some q →
      q.items.length + (roundRobinSlice t j 0 hosts).length ≤ q.cap := by
    intro j q hget
    have hq : q = ⟨hosts.length, []⟩ :=
      List.eq_of_mem_replicate (List.get?_mem hget)
    subst hq
    simpa using roundRobinSlice_length_le t j 0 hosts
  obtain ⟨qs2, hrun, hchar⟩ := distributeHosts_eq ht hosts 0
    (List.replicate t ⟨hosts.length, []⟩) (by simp) hcaps0
  unfold NewScheduler.new at hnew
  cases hq1 : newQueues hosts.length t with
  | none => rw [hq1] at hnew; exact absurd hnew (by simp)
  | some qs1 =>
  rw [hq1] at hnew
  dsimp only at hnew
  rw [newQueues_eq hq1] at hnew
  rw [hrun] at hnew
  dsimp only at hnew
  injection hnew with he
  rw [← he]
  have hrep : (List.replicate t (⟨hosts.length, []⟩ : ArrayQueue)).get? j =
      some ⟨hosts.length, []⟩ := by
    rw [List.get?_eq_get (by simpa using hj)]
    simp
  have := hchar j ⟨hosts.length, []⟩ hrep
  rw [this]
  rw [show (⟨hosts.length, []⟩ : ArrayQueue).items = [] from rfl]
  rw [List.nil_append]

/-- Claim C6, witness: the placement theorem applied to 5 hosts over 3
threads at queue 0. -/
theorem C6_round_robin_and_swap_witness :
    (NewScheduler.new 3 [0, 1, 2, 3, 4] =
      some ⟨3, [⟨5, [0, 3]⟩, ⟨5, [1, 4]⟩, ⟨5, [2]⟩],
        [⟨5, []⟩, ⟨5, []⟩, ⟨5, []⟩], false⟩) ∧
    (⟨3, [⟨5, [0, 3]⟩, ⟨5, [1, 4]⟩, ⟨5, [2]⟩],
        [⟨5, []⟩, ⟨5, []⟩, ⟨5, []⟩], false⟩ :
      NewScheduler).thread_hosts.get? 0 =
      some ⟨[0, 1, 2, 3, 4].length, roundRobinSlice 3 0 0 [0, 1, 2, 3, 4]⟩ :=
  ⟨C6_round_robin_and_swap.2.1,
    C6_round_robin_and_swap.1 3 [0, 1, 2, 3, 4] _ (by decide)
      C6_round_robin_and_swap.2.1 0 (by decide)⟩

/-- Claim C7: the end-of-task assertions of `run_with_hosts` (and
`run_with_data`) panic exactly when the task left its `HostIter` partially
drained — a current host still held, or a `next()` that would still return
a host from some queue in the remaining scan range; and `HostIter`'s
`Drop` returns a currently held host to this thread's "to" queue (and is a
no-op when no host is held). -/
theorem C7_partial_drain_detection :
    (∀ (fromq : List ArrayQueue) (it : HostIter),
      taskEndPanics fromq it = true ↔
        it.current_host ≠ none ∨
        ∃ o q, it.thread_index_iter_offset ≤ o ∧ o < fromq.length ∧
          fromq.get? ((it.this_thread_index + o) % fromq.length) =
            some q ∧ q.items ≠ []) ∧
    (∀ (toq : ArrayQueue) (it : HostIter) (h : Nat),
      it.current_host = some h → toq.items.length < toq.cap →
      hostIterDrop toq it =
        some (⟨toq.cap, toq.items ++ [h]⟩,
          ⟨it.this_thread_index, it.thread_index_iter_offset, none⟩)) ∧
    (∀ (toq : ArrayQueue) (it : HostIter), it.current_host = none →
      hostIterDrop toq it = some (toq, it)) := by
  refine ⟨?_, ?_, ?_⟩
  · intro fromq it
    unfold taskEndPanics
    rw [Bool.or_eq_true, Option.isSome_iff_ne_none,
      Option.isSome_iff_ne_none]
    have hiff := nextScan_none_iff fromq it.this_thread_index
      (fromq.length - it.thread_index_iter_offset)
      it.thread_index_iter_offset (le_refl _)
    constructor
    · rintro (h | h)
      · exact Or.inl h
      · refine Or.inr ?_
        by_contra hne
        push_neg at hne
        exact h (hiff.mpr (fun o q h1 h2 h3 => hne o q h1 h2 h3))
    · rintro (h | ⟨o, q, h1, h2, h3, h4⟩)
      · exact Or.inl h
      · refine Or.inr (fun hnone => ?_)
        exact h4 (hiff.mp hnone o q h1 h2 h3)
  · intro toq it h hcur hlt
    unfold hostIterDrop returnCurrentHost
    rw [hcur]
    dsimp only
    rw [push_of_lt hlt]
  · intro toq it hcur
    unfold hostIterDrop returnCurrentHost
    rw [hcur]

/-- Claim C7, witness: an undrained queue makes the end-of-task assertions
panic, and dropping an iterator holding host 7 deposits it. -/
theorem C7_partial_drain_detection_witness :
    taskEndPanics [⟨1, [7]⟩] ⟨0, 0, none⟩ = true ∧
    hostIterDrop ⟨1, []⟩ ⟨0, 0, some 7⟩ =
      some (⟨1, [7]⟩, ⟨0, 0, none⟩) :=
  ⟨(C7_partial_drain_detection.1 [⟨1, [7]⟩] ⟨0, 0, none⟩).2
      (Or.inr ⟨0, ⟨1, [7]⟩, by decide, by decide, by decide, by decide⟩),
    C7_partial_drain_detection.2.1 ⟨1, []⟩ ⟨0, 0, some 7⟩ 7 rfl
      (by decide)⟩

/-- Claim C8, code bug: the spec declares an empty host set legal with a
no-op round, but `NewScheduler::new` constructs each per-thread queue with
`ArrayQueue::new(hosts.len())`, and crossbeam's `ArrayQueue::new` panics
on a zero capacity ("capacity must be non-zero"); so for every positive
thread count, construction from an empty host collection panics
(modelled as `none`) instead of succeeding. -/
theorem C8_empty_host_set :
    ArrayQueue.new 0 = none ∧
    ∀ t : Nat, 0 < t → NewScheduler.new t [] = none := by
  refine ⟨rfl, ?_⟩
  intro t ht
  cases t with
  | zero => exact absurd ht (lt_irrefl 0)
  | succ n => rfl

/-- Claim C8, witness: one thread and no hosts — the first queue
construction already panics. -/
theorem C8_empty_host_set_witness :
    0 < 1 ∧ NewScheduler.new 1 [] = none :=
  ⟨by decide, C8_empty_host_set.2 1 (by decide)⟩

end Vo
